import Mathlib

/-!
Verification of the constraint subsystem of the `find-my-way` router
(`lib/constrainer.js`, `lib/strategies/accept-version.js`), as a shallow
embedding: JavaScript values, headers and strategy objects become Lean data,
the dynamically compiled deriver/matcher functions become Lean functions
computed from the constrainer state, and thrown JS errors become `Except`.
-/

set_option autoImplicit false

namespace FindMyWay

/-- The subset of JavaScript values the constraint subsystem manipulates:
header values, derived constraint values and strategy `name` properties.
`undefined` models both a missing object property and a missing header. -/
inductive JsVal where
  | undefined
  | null
  | bool (b : Bool)
  | num (n : Int)
  | str (s : String)
  deriving DecidableEq, Repr

/-- JavaScript truthiness, as tested by `if (value)` in the compiled
deriver: `undefined`, `null`, `false`, `0` and the empty string are falsy. -/
def JsVal.truthy : JsVal → Bool
  | .undefined => false
  | .null => false
  | .bool b => b
  | .num n => n != 0
  | .str s => s != ""

/-- An incoming request, exposing only what the strategies read: the header
map. A header that is absent maps to `JsVal.undefined`. -/
structure Req where
  headers : String → JsVal

/-- Errors thrown by the constrainer: `assert` failures in the constructor,
`TypeError` from dereferencing an undefined strategy while compiling the
deriver, plain `Error` for unknown strategy keys, and strategy validation
failures. -/
inductive JsErr where
  | assertionError (msg : String)
  | typeError (msg : String)
  | error (msg : String)
  | validationError (msg : String)
  deriving DecidableEq, Repr

/-- The `UnknownStrategy` error thrown by `validateConstraints` and
`newStoreForConstraint`: `new Error('No strategy registered for constraint
key ' + key)`. -/
def unknownStrategyErr (key : String) : JsErr :=
  .error ("No strategy registered for constraint key " ++ key)

/-- A plain JavaScript object used as a string-to-value map, in property
insertion order, with at most one entry per key (maintained by `objSet`). -/
abbrev JsObj := List (String × JsVal)

/-- Property read `m[k]`: the first entry with key `k`, if any. -/
def objLookup (m : JsObj) (k : String) : Option JsVal :=
  match m with
  | [] => none
  | (k0, v0) :: rest => if k0 = k then some v0 else objLookup rest k

/-- Property write `m[k] = v`: overwrite in place if the key exists
(JavaScript keeps the original insertion position), else append. -/
def objSet (m : JsObj) (k : String) (v : JsVal) : JsObj :=
  match m with
  | [] => [(k, v)]
  | (k0, v0) :: rest => if k0 = k then (k0, v) :: rest else (k0, v0) :: objSet rest k v

/-- A registered constraint strategy as stored in `availableStrategies`:
its `name`, its `deriveConstraint(req, ctx)` function, its optional
`validate` function, the truthiness of its `mustMatchWhenDerived` property,
and the `isCustom` marker the constructor stamps on custom strategies.
The `storage` factory is opaque to every claim and is not carried. -/
structure Strategy where
  name : String
  deriveConstraint : Req → JsVal → JsVal
  validate : Option (JsVal → Except JsErr Unit)
  mustMatchWhenDerived : Bool
  isCustom : Bool

/-- The built-in accept-version strategy (`lib/strategies/accept-version.js`):
`name: 'version'`, `deriveConstraint` reads `req.headers['accept-version']`.
The module sets no `mustMatchWhenDerived` property and no `validate`, so the
flag reads back as `undefined` (falsy). -/
def acceptVersionStrategy : Strategy :=
  { name := "version"
    deriveConstraint := fun req _ => req.headers "accept-version"
    validate := none
    mustMatchWhenDerived := false
    isCustom := false }

/-- Modelled from the spec: `lib/strategies/accept-host.js` is required by
`constrainer.js` but is not under `src/`. Per the spec, the `host` strategy
derives `req.headers.host` (exact string matching) and is NOT flagged
`mustMatchWhenDerived`; like accept-version it defines no `validate`. -/
def acceptHostStrategy : Strategy :=
  { name := "host"
    deriveConstraint := fun req _ => req.headers "host"
    validate := none
    mustMatchWhenDerived := false
    isCustom := false }

/-- A raw custom strategy object as passed to the constructor, before the
`assert` checks: `name` is an arbitrary JS value, `storage` and
`deriveConstraint` are either function-valued (`some`) or absent or not a
function (`none`, which fails the same `typeof` assert either way). -/
structure StrategyObj where
  name : JsVal
  storage : Option Unit
  deriveConstraint : Option (Req → JsVal → JsVal)
  validate : Option (JsVal → Except JsErr Unit)
  mustMatchWhenDerived : Bool

/-- The mutable state of a `Constrainer` relevant to the claims. The
compiled `deriveConstraints` and `mustMatchHandlerMatcher` functions are
recomputed deterministically from this state by `buildDeriveConstraints`
and `mustMatchHandlerMatcher` below, mirroring `compileFunctions`. -/
structure Constrainer where
  availableStrategies : List (String × Strategy)
  usedStrategies : List String

/-- Property read on the `availableStrategies` object. -/
def lookupStrat (m : List (String × Strategy)) (k : String) : Option Strategy :=
  match m with
  | [] => none
  | (k0, s) :: rest => if k0 = k then some s else lookupStrat rest k

/-- Property write on the `availableStrategies` object (overwrite keeps the
original insertion position, as in `objSet`). -/
def setStrat (m : List (String × Strategy)) (k : String) (s : Strategy) :
    List (String × Strategy) :=
  match m with
  | [] => [(k, s)]
  | (k0, s0) :: rest => if k0 = k then (k0, s) :: rest else (k0, s0) :: setStrat rest k s

/-- The three `assert` checks of the constructor loop, in source order:
`strategy.name` must be a non-empty string, `strategy.storage` and
`strategy.deriveConstraint` must be functions. On success, returns the
validated name and deriver. -/
def checkStrategyObj (obj : StrategyObj) :
    Except JsErr (String × (Req → JsVal → JsVal)) :=
  match obj.name with
  | .str s =>
    if s = "" then .error (.assertionError "strategy.name is required.")
    else
      match obj.storage with
      | none => .error (.assertionError "strategy.storage function is required.")
      | some _ =>
        match obj.deriveConstraint with
        | none => .error (.assertionError "strategy.deriveConstraint function is required.")
        | some f => .ok (s, f)
  | _ => .error (.assertionError "strategy.name is required.")

/-- The stored `Strategy` the constructor builds from a raw custom strategy
object once the asserts passed: `isCustom` is set to `true` and the object
is keyed by its own `name`. -/
def toStrategy (s : String) (f : Req → JsVal → JsVal) (obj : StrategyObj) : Strategy :=
  { name := s
    deriveConstraint := f
    validate := obj.validate
    mustMatchWhenDerived := obj.mustMatchWhenDerived
    isCustom := true }

/-- The built-in strategies registered before any custom one:
`{ version: acceptVersionStrategy, host: acceptHostStrategy }`. -/
def baseStrategies : List (String × Strategy) :=
  [("version", acceptVersionStrategy), ("host", acceptHostStrategy)]

/-- The constructor loop over `Object.keys(customStrategies)`: validate each
raw strategy object with the three asserts, mark it custom and insert it
into `availableStrategies` keyed by `strategy.name` (the map key supplied by
the caller is ignored). A failed assert aborts construction. -/
def addCustomStrategies :
    List (String × Strategy) → List (String × StrategyObj) →
    Except JsErr (List (String × Strategy))
  | acc, [] => .ok acc
  | acc, (_, obj) :: rest =>
    match checkStrategyObj obj with
    | .error e => .error e
    | .ok (s, f) => addCustomStrategies (setStrat acc s (toStrategy s f obj)) rest

/-- `new Constrainer(customStrategies)`: built-ins, then the custom-strategy
validation loop, then `usedStrategies = []` and the initial
`compileFunctions()` (which cannot fail while `usedStrategies` is empty). -/
def mkConstrainer (customStrategies : Option (List (String × StrategyObj))) :
    Except JsErr Constrainer :=
  match customStrategies with
  | none => .ok { availableStrategies := baseStrategies, usedStrategies := [] }
  | some customs =>
    match addCustomStrategies baseStrategies customs with
    | .error e => .error e
    | .ok avail => .ok { availableStrategies := avail, usedStrategies := [] }

/-- The build-time loop of `_buildDeriveConstraints`: each used strategy
name is looked up in `availableStrategies` and its `isCustom` property is
read to choose the generated branch. A name with no registered strategy
makes `strategy.isCustom` throw a `TypeError` during compilation. -/
def resolveUsed (avail : List (String × Strategy)) :
    List String → Except JsErr (List (String × Strategy))
  | [] => .ok []
  | key :: rest =>
    match lookupStrat avail key with
    | none => .error (.typeError "Cannot read properties of undefined (reading isCustom)")
    | some strat =>
      match resolveUsed avail rest with
      | .error e => .error e
      | .ok tl => .ok ((key, strat) :: tl)

/-- The per-strategy value extraction in the generated deriver body: custom
strategies call their own `deriveConstraint(req, ctx)`; the built-in keys
`version` and `host` are inlined as direct header reads; a non-custom key
outside the `defaultConstraints` table interpolates to `value = undefined`. -/
def derivedValueFor (key : String) (strat : Strategy) (req : Req) (ctx : JsVal) : JsVal :=
  if strat.isCustom then strat.deriveConstraint req ctx
  else if key = "version" then req.headers "accept-version"
  else if key = "host" then req.headers "host"
  else .undefined

/-- One generated block: `value = ...; if (value) { hasConstraint = true;
derivedConstraints.<name> = value }`, threading the
`(hasConstraint, derivedConstraints)` pair. -/
def deriveStep (req : Req) (ctx : JsVal) (acc : Bool × JsObj) (ks : String × Strategy) :
    Bool × JsObj :=
  let value := derivedValueFor ks.1 ks.2 req ctx
  if value.truthy then (true, objSet acc.2 ks.2.name value) else acc

/-- The straight-line sequence of generated blocks, one per used strategy,
in registration order. -/
def derivePass (req : Req) (ctx : JsVal) :
    List (String × Strategy) → Bool × JsObj → Bool × JsObj
  | [], acc => acc
  | ks :: rest, acc => derivePass req ctx rest (deriveStep req ctx acc ks)

/-- The body of the compiled deriver for a non-empty used-strategy list:
run all blocks, then `return hasConstraint ? derivedConstraints : null`
(`none` models `null`, `some` models the object). -/
def runDerive (resolved : List (String × Strategy)) (req : Req) (ctx : JsVal) :
    Option JsObj :=
  let r := derivePass req ctx resolved (false, [])
  if r.1 then some r.2 else none

/-- `_buildDeriveConstraints()`: with no used strategies the compiled
function is the constant `return null`; otherwise the build-time loop
resolves every used strategy (possibly throwing a `TypeError`) and the
compiled function is `runDerive` over the resolved list. -/
def buildDeriveConstraints (c : Constrainer) :
    Except JsErr (Req → JsVal → Option JsObj) :=
  match c.usedStrategies with
  | [] => .ok (fun _ _ => none)
  | _ :: _ =>
    match resolveUsed c.availableStrategies c.usedStrategies with
    | .error e => .error e
    | .ok resolved => .ok (runDerive resolved)

/-- The chain of generated guards in `_buildMustMatchHandlerMatcher`: one
`if (typeof derivedConstraints.<key> !== "undefined") return null` per
available strategy whose `mustMatchWhenDerived` property is truthy, in
`availableStrategies` insertion order. -/
def mustMatchCheck (avail : List (String × Strategy)) (derived : JsObj) : Bool :=
  match avail with
  | [] => false
  | (k, s) :: rest =>
    if s.mustMatchWhenDerived && (objLookup derived k).isSome then true
    else mustMatchCheck rest derived

/-- The compiled must-match matcher a node calls for its default handler:
return `null` if any must-match strategy derived a value, else
`this.handlers[0]` (`none` when the node has no handlers at all). -/
def mustMatchHandlerMatcher {α : Type} (c : Constrainer) (derived : JsObj)
    (handlers : List α) : Option α :=
  if mustMatchCheck c.availableStrategies derived then none else handlers.head?

/-- `addUsedStrategy(strategyName)`: a name already in `usedStrategies` is a
no-op; otherwise it is pushed and `compileFunctions()` runs, which can throw
from `_buildDeriveConstraints` when the name has no registered strategy
(`_buildMustMatchHandlerMatcher` never throws). -/
def addUsedStrategy (c : Constrainer) (strategyName : String) : Except JsErr Constrainer :=
  if strategyName ∈ c.usedStrategies then .ok c
  else
    match buildDeriveConstraints
        { c with usedStrategies := c.usedStrategies ++ [strategyName] } with
    | .error e => .error e
    | .ok _ => .ok { c with usedStrategies := c.usedStrategies ++ [strategyName] }

/-- `validateConstraints(constraints)`: for each key in insertion order,
resolve the strategy (throwing `UnknownStrategy` when absent) and run its
`validate` on the value when it defines one, propagating its failure. -/
def validateConstraints (c : Constrainer) : List (String × JsVal) → Except JsErr Unit
  | [] => .ok ()
  | (key, value) :: rest =>
    match lookupStrat c.availableStrategies key with
    | none => .error (unknownStrategyErr key)
    | some strat =>
      match strat.validate with
      | none => validateConstraints c rest
      | some f =>
        match f value with
        | .error e => .error e
        | .ok _ => validateConstraints c rest

/-- Modelled from the spec: the un-inlined derivation the spec describes
("for each used strategy in registration order, invoke its `deriveValue`"),
used as the reference point for the claim that the inlined header reads are
semantically identical to calling the strategies' own `deriveConstraint`. -/
def genericDeriveStep (req : Req) (ctx : JsVal) (acc : Bool × JsObj)
    (ks : String × Strategy) : Bool × JsObj :=
  let value := ks.2.deriveConstraint req ctx
  if value.truthy then (true, objSet acc.2 ks.2.name value) else acc

/-- Modelled from the spec: generic derivation over the resolved used
strategies, calling `deriveConstraint` uniformly instead of inlining. -/
def genericDerivePass (req : Req) (ctx : JsVal) :
    List (String × Strategy) → Bool × JsObj → Bool × JsObj
  | [], acc => acc
  | ks :: rest, acc => genericDerivePass req ctx rest (genericDeriveStep req ctx acc ks)

/-- Modelled from the spec: the generic deriver result, with the same
null-vs-object convention as the compiled one. -/
def runGenericDerive (resolved : List (String × Strategy)) (req : Req) (ctx : JsVal) :
    Option JsObj :=
  let r := genericDerivePass req ctx resolved (false, [])
  if r.1 then some r.2 else none

/-- The entry a derivation result exposes for a strategy name: nothing when
the result is the null marker, else the object's property. -/
def resultEntry (r : Option JsObj) (k : String) : Option JsVal :=
  match r with
  | none => none
  | some m => objLookup m k

/-- The constrainer produced by `new Constrainer()` with no custom
strategies: the two built-in strategies and an empty used list. -/
def defaultConstrainer : Constrainer :=
  { availableStrategies := baseStrategies, usedStrategies := [] }

/-- A request carrying exactly the given headers; every other header reads
back as `undefined`. -/
def headerReq (l : JsObj) : Req :=
  { headers := fun h =>
      match objLookup l h with
      | some v => v
      | none => .undefined }

/-- One route-level constraint entry that `validateConstraints` passes over
without throwing: its key resolves to a strategy whose `validate`, when
defined, accepts the value. -/
def entryOk (c : Constrainer) (e : String × JsVal) : Prop :=
  ∃ s, lookupStrat c.availableStrategies e.1 = some s ∧
    ∀ f, s.validate = some f → f e.2 = .ok ()

/-- A malformed custom strategy object: it has no `name` property. -/
def namelessStrategyObj : StrategyObj :=
  { name := JsVal.undefined
    storage := some ()
    deriveConstraint := some fun req _ => req.headers "region"
    validate := none
    mustMatchWhenDerived := false }

/-- A well-formed custom strategy object named "region" deriving the
`region` header. -/
def regionStrategyObj : StrategyObj :=
  { name := JsVal.str "region"
    storage := some ()
    deriveConstraint := some fun req _ => req.headers "region"
    validate := none
    mustMatchWhenDerived := false }

/-! ## Basic lemmas about the object operations -/

theorem objLookup_objSet_self (m : JsObj) (k : String) (v : JsVal) :
    objLookup (objSet m k v) k = some v := by
  induction m with
  | nil => simp [objSet, objLookup]
  | cons p rest ih =>
    obtain ⟨k0, v0⟩ := p
    simp only [objSet]
    by_cases h : k0 = k
    · rw [if_pos h]
      simp only [objLookup]
      rw [if_pos h]
    · rw [if_neg h]
      simp only [objLookup]
      rw [if_neg h, ih]

theorem objLookup_objSet_ne (m : JsObj) (k k2 : String) (v : JsVal) (h : k2 ≠ k) :
    objLookup (objSet m k v) k2 = objLookup m k2 := by
  induction m with
  | nil =>
    simp only [objSet, objLookup]
    rw [if_neg (Ne.symm h)]
  | cons p rest ih =>
    obtain ⟨k0, v0⟩ := p
    simp only [objSet]
    by_cases h0 : k0 = k
    · rw [if_pos h0]
      have hne : k0 ≠ k2 := by rw [h0]; exact Ne.symm h
      simp only [objLookup]
      rw [if_neg hne, if_neg hne]
    · rw [if_neg h0]
      simp only [objLookup]
      by_cases h2 : k0 = k2
      · rw [if_pos h2, if_pos h2]
      · rw [if_neg h2, if_neg h2, ih]

theorem lookupStrat_mem (m : List (String × Strategy)) (k : String) (s : Strategy)
    (h : lookupStrat m k = some s) : (k, s) ∈ m := by
  induction m with
  | nil => simp [lookupStrat] at h
  | cons p rest ih =>
    obtain ⟨k0, s0⟩ := p
    simp only [lookupStrat] at h
    by_cases h0 : k0 = k
    · rw [if_pos h0] at h
      subst h0
      cases h
      exact List.mem_cons_self _ _
    · rw [if_neg h0] at h
      exact List.mem_cons_of_mem _ (ih h)

theorem lookupStrat_setStrat_self (m : List (String × Strategy)) (k : String) (s : Strategy) :
    lookupStrat (setStrat m k s) k = some s := by
  induction m with
  | nil => simp [setStrat, lookupStrat]
  | cons p rest ih =>
    obtain ⟨k0, s0⟩ := p
    simp only [setStrat]
    by_cases h : k0 = k
    · rw [if_pos h]
      simp only [lookupStrat]
      rw [if_pos h]
    · rw [if_neg h]
      simp only [lookupStrat]
      rw [if_neg h, ih]

theorem lookupStrat_setStrat_ne (m : List (String × Strategy)) (k k2 : String) (s : Strategy)
    (h : k2 ≠ k) : lookupStrat (setStrat m k s) k2 = lookupStrat m k2 := by
  induction m with
  | nil =>
    simp only [setStrat, lookupStrat]
    rw [if_neg (Ne.symm h)]
  | cons p rest ih =>
    obtain ⟨k0, s0⟩ := p
    simp only [setStrat]
    by_cases h0 : k0 = k
    · rw [if_pos h0]
      have hne : k0 ≠ k2 := by rw [h0]; exact Ne.symm h
      simp only [lookupStrat]
      rw [if_neg hne, if_neg hne]
    · rw [if_neg h0]
      simp only [lookupStrat]
      by_cases h2 : k0 = k2
      · rw [if_pos h2, if_pos h2]
      · rw [if_neg h2, if_neg h2, ih]

theorem setStrat_mem (m : List (String × Strategy)) (k : String) (s : Strategy)
    (p : String × Strategy) (h : p ∈ setStrat m k s) : p = (k, s) ∨ p ∈ m := by
  induction m with
  | nil =>
    simp [setStrat] at h
    simp [h]
  | cons q rest ih =>
    obtain ⟨k0, s0⟩ := q
    simp only [setStrat] at h
    by_cases h0 : k0 = k
    · rw [if_pos h0] at h
      rcases List.mem_cons.mp h with h | h
      · left; rw [h, h0]
      · right; exact List.mem_cons_of_mem _ h
    · rw [if_neg h0] at h
      rcases List.mem_cons.mp h with h | h
      · right; rw [h]; exact List.mem_cons_self _ _
      · rcases ih h with h2 | h2
        · left; exact h2
        · right; exact List.mem_cons_of_mem _ h2

/-! ## Lemmas about the compiled derivation pass -/

theorem derivePass_append (req : Req) (ctx : JsVal) (l1 l2 : List (String × Strategy))
    (acc : Bool × JsObj) :
    derivePass req ctx (l1 ++ l2) acc = derivePass req ctx l2 (derivePass req ctx l1 acc) := by
  induction l1 generalizing acc with
  | nil => simp [derivePass]
  | cons ks rest ih => simp [derivePass, ih]

theorem deriveStep_fst (req : Req) (ctx : JsVal) (acc : Bool × JsObj) (ks : String × Strategy) :
    (deriveStep req ctx acc ks).1
      = (acc.1 || (derivedValueFor ks.1 ks.2 req ctx).truthy) := by
  unfold deriveStep
  by_cases h : (derivedValueFor ks.1 ks.2 req ctx).truthy
  · simp [h]
  · simp at h
    simp [h]

theorem derivePass_fst (req : Req) (ctx : JsVal) (l : List (String × Strategy))
    (acc : Bool × JsObj) :
    (derivePass req ctx l acc).1
      = (acc.1 || l.any fun ks => (derivedValueFor ks.1 ks.2 req ctx).truthy) := by
  induction l generalizing acc with
  | nil => simp [derivePass]
  | cons ks rest ih =>
    simp only [derivePass, ih, deriveStep_fst, List.any_cons]
    rw [Bool.or_assoc]

theorem derivePass_of_fst_false (req : Req) (ctx : JsVal) (l : List (String × Strategy))
    (acc : Bool × JsObj) (h : (derivePass req ctx l acc).1 = false) :
    derivePass req ctx l acc = acc := by
  induction l generalizing acc with
  | nil => simp [derivePass]
  | cons ks rest ih =>
    simp only [derivePass] at h ⊢
    have hstep : deriveStep req ctx acc ks = acc := by
      have h1 := derivePass_fst req ctx rest (deriveStep req ctx acc ks)
      rw [h] at h1
      have h2 : (deriveStep req ctx acc ks).1 = false := by
        cases hb : (deriveStep req ctx acc ks).1
        · rfl
        · rw [hb] at h1; simp at h1
      unfold deriveStep at h2 ⊢
      by_cases ht : (derivedValueFor ks.1 ks.2 req ctx).truthy
      · simp [ht] at h2
      · simp at ht
        simp [ht]
    rw [hstep] at h ⊢
    exact ih acc h

theorem derivePass_objLookup_of_no_name (req : Req) (ctx : JsVal)
    (l : List (String × Strategy)) (acc : Bool × JsObj) (k : String)
    (h : ∀ ks ∈ l, ks.2.name ≠ k) :
    objLookup (derivePass req ctx l acc).2 k = objLookup acc.2 k := by
  induction l generalizing acc with
  | nil => simp [derivePass]
  | cons ks rest ih =>
    simp only [derivePass]
    rw [ih _ fun p hp => h p (List.mem_cons_of_mem _ hp)]
    unfold deriveStep
    by_cases ht : (derivedValueFor ks.1 ks.2 req ctx).truthy
    · simp [ht, objLookup_objSet_ne _ _ _ _ fun hh => h ks (List.mem_cons_self _ _) hh.symm]
    · simp at ht
      simp [ht]

theorem derivePass_entry (req : Req) (ctx : JsVal) (l1 l2 : List (String × Strategy))
    (ks : String × Strategy) (acc : Bool × JsObj)
    (hno : ∀ p ∈ l2, p.2.name ≠ ks.2.name)
    (htruthy : (derivedValueFor ks.1 ks.2 req ctx).truthy = true) :
    objLookup (derivePass req ctx (l1 ++ ks :: l2) acc).2 ks.2.name
      = some (derivedValueFor ks.1 ks.2 req ctx) := by
  rw [derivePass_append]
  simp only [derivePass]
  rw [derivePass_objLookup_of_no_name _ _ _ _ _ hno]
  unfold deriveStep
  simp [htruthy, objLookup_objSet_self]

/-! ## Lemmas about the must-match guard chain -/

theorem mustMatchCheck_eq_true_iff (avail : List (String × Strategy)) (derived : JsObj) :
    mustMatchCheck avail derived = true
      ↔ ∃ p ∈ avail, p.2.mustMatchWhenDerived = true ∧ (objLookup derived p.1).isSome = true := by
  induction avail with
  | nil => simp [mustMatchCheck]
  | cons q rest ih =>
    obtain ⟨k0, s0⟩ := q
    simp only [mustMatchCheck]
    by_cases h : s0.mustMatchWhenDerived && (objLookup derived k0).isSome
    · rw [if_pos h]
      simp only [Bool.and_eq_true] at h
      constructor
      · intro _
        exact ⟨(k0, s0), List.mem_cons_self _ _, h.1, h.2⟩
      · intro _
        rfl
    · rw [if_neg h, ih]
      constructor
      · rintro ⟨q2, hq2, hflag, hdef⟩
        exact ⟨q2, List.mem_cons_of_mem _ hq2, hflag, hdef⟩
      · rintro ⟨q2, hq2, hflag, hdef⟩
        rcases List.mem_cons.mp hq2 with heq | hmem
        · refine absurd ?_ h
          rw [heq] at hflag hdef
          simp [hdef]
          exact hflag
        · exact ⟨q2, hmem, hflag, hdef⟩

/-! ## Lemmas about build-time resolution of used strategies -/

theorem resolveUsed_spec (avail : List (String × Strategy)) (used : List String)
    (resolved : List (String × Strategy))
    (h : resolveUsed avail used = .ok resolved) :
    resolved.map Prod.fst = used ∧ ∀ ks ∈ resolved, lookupStrat avail ks.1 = some ks.2 := by
  induction used generalizing resolved with
  | nil =>
    simp only [resolveUsed] at h
    injection h with h
    subst h
    constructor <;> simp
  | cons key rest ih =>
    simp only [resolveUsed] at h
    cases hl : lookupStrat avail key with
    | none => rw [hl] at h; cases h
    | some strat =>
      rw [hl] at h
      cases hr : resolveUsed avail rest with
      | error e => rw [hr] at h; cases h
      | ok tl =>
        rw [hr] at h
        injection h with h
        subst h
        obtain ⟨h1, h2⟩ := ih tl hr
        constructor
        · simp [h1]
        · intro ks hks
          rcases List.mem_cons.mp hks with heq | hmem
          · rw [heq]; exact hl
          · exact h2 ks hmem

theorem resolveUsed_ok_of_forall (avail : List (String × Strategy)) (used : List String)
    (h : ∀ k ∈ used, (lookupStrat avail k).isSome = true) :
    ∃ resolved, resolveUsed avail used = .ok resolved := by
  induction used with
  | nil => exact ⟨[], rfl⟩
  | cons key rest ih =>
    obtain ⟨tl, htl⟩ := ih fun k hk => h k (List.mem_cons_of_mem _ hk)
    have hk := h key (List.mem_cons_self _ _)
    cases hl : lookupStrat avail key with
    | none => rw [hl] at hk; simp at hk
    | some strat => exact ⟨(key, strat) :: tl, by simp [resolveUsed, hl, htl]⟩

theorem resolveUsed_append (avail : List (String × Strategy)) (u1 u2 : List String)
    (r1 : List (String × Strategy)) (h1 : resolveUsed avail u1 = .ok r1) :
    resolveUsed avail (u1 ++ u2)
      = Except.map (fun r2 => r1 ++ r2) (resolveUsed avail u2) := by
  induction u1 generalizing r1 with
  | nil =>
    simp only [resolveUsed] at h1
    injection h1 with h1
    subst h1
    simp only [List.nil_append]
    cases h2 : resolveUsed avail u2 <;> simp [Except.map]
  | cons key rest ih =>
    simp only [resolveUsed] at h1
    cases hl : lookupStrat avail key with
    | none => rw [hl] at h1; cases h1
    | some strat =>
      rw [hl] at h1
      cases hr : resolveUsed avail rest with
      | error e => rw [hr] at h1; cases h1
      | ok tl =>
        rw [hr] at h1
        injection h1 with h1
        subst h1
        have hih := ih tl hr
        simp only [List.cons_append, resolveUsed, hl, List.append_eq]
        rw [hih]
        cases h2 : resolveUsed avail u2 with
        | error e => simp [Except.map]
        | ok r2 => simp [Except.map]

theorem resolveUsed_names (avail : List (String × Strategy)) (used : List String)
    (resolved : List (String × Strategy))
    (h : resolveUsed avail used = .ok resolved)
    (hnames : ∀ p ∈ avail, p.2.name = p.1) :
    resolved.map (fun ks => ks.2.name) = used := by
  obtain ⟨h1, h2⟩ := resolveUsed_spec avail used resolved h
  rw [← h1]
  apply List.map_congr_left
  intro ks hks
  exact hnames ks (lookupStrat_mem _ _ _ (h2 ks hks))

/-! ## Lemmas about the constructor loop -/

theorem addCustomStrategies_mem (acc : List (String × Strategy))
    (l : List (String × StrategyObj)) (avail : List (String × Strategy))
    (h : addCustomStrategies acc l = .ok avail) :
    ∀ p ∈ avail, p ∈ acc ∨ p.2.isCustom = true := by
  induction l generalizing acc with
  | nil =>
    simp only [addCustomStrategies] at h
    injection h with h
    subst h
    exact fun p hp => Or.inl hp
  | cons e rest ih =>
    obtain ⟨k0, obj⟩ := e
    simp only [addCustomStrategies] at h
    cases hc : checkStrategyObj obj with
    | error err => rw [hc] at h; cases h
    | ok sf =>
      obtain ⟨s, f⟩ := sf
      rw [hc] at h
      intro p hp
      rcases ih _ h p hp with hmem | hcustom
      · rcases setStrat_mem _ _ _ _ hmem with heq | hmem2
        · right; rw [heq]; rfl
        · left; exact hmem2
      · right; exact hcustom

theorem addCustomStrategies_ok (acc : List (String × Strategy))
    (l : List (String × StrategyObj))
    (h : ∀ e ∈ l, ∃ s f, checkStrategyObj e.2 = .ok (s, f)) :
    ∃ avail, addCustomStrategies acc l = .ok avail := by
  induction l generalizing acc with
  | nil => exact ⟨acc, rfl⟩
  | cons e rest ih =>
    obtain ⟨s, f, hc⟩ := h e (List.mem_cons_self _ _)
    obtain ⟨k0, obj⟩ := e
    obtain ⟨avail, ha⟩ :=
      ih (setStrat acc s (toStrategy s f obj)) fun e2 he2 => h e2 (List.mem_cons_of_mem _ he2)
    refine ⟨avail, ?_⟩
    simp only [addCustomStrategies, hc]
    exact ha

theorem addCustomStrategies_append (acc : List (String × Strategy))
    (l1 l2 : List (String × StrategyObj)) (a1 : List (String × Strategy))
    (h : addCustomStrategies acc l1 = .ok a1) :
    addCustomStrategies acc (l1 ++ l2) = addCustomStrategies a1 l2 := by
  induction l1 generalizing acc with
  | nil =>
    simp only [addCustomStrategies] at h
    injection h with h
    subst h
    rw [List.nil_append]
  | cons e rest ih =>
    obtain ⟨k0, obj⟩ := e
    simp only [List.cons_append, addCustomStrategies] at h ⊢
    cases hc : checkStrategyObj obj with
    | error err => rw [hc] at h; cases h
    | ok sf =>
      obtain ⟨s, f⟩ := sf
      rw [hc] at h
      exact ih _ h

theorem addCustomStrategies_lookup_other (acc : List (String × Strategy))
    (l : List (String × StrategyObj)) (avail : List (String × Strategy)) (k : String)
    (h : addCustomStrategies acc l = .ok avail)
    (hne : ∀ e ∈ l, ∀ s f, checkStrategyObj e.2 = .ok (s, f) → s ≠ k) :
    lookupStrat avail k = lookupStrat acc k := by
  induction l generalizing acc with
  | nil =>
    simp only [addCustomStrategies] at h
    injection h with h
    subst h
    rfl
  | cons e rest ih =>
    obtain ⟨k0, obj⟩ := e
    simp only [addCustomStrategies] at h
    cases hc : checkStrategyObj obj with
    | error err => rw [hc] at h; cases h
    | ok sf =>
      obtain ⟨s, f⟩ := sf
      rw [hc] at h
      have hs : s ≠ k := hne (k0, obj) (List.mem_cons_self _ _) s f hc
      rw [ih _ h fun e2 he2 => hne e2 (List.mem_cons_of_mem _ he2)]
      exact lookupStrat_setStrat_ne _ _ _ _ (Ne.symm hs)

/-! ## Lemmas about per-route validation -/

theorem validateConstraints_append (c : Constrainer) (pre rest : List (String × JsVal))
    (h : ∀ e ∈ pre, entryOk c e) :
    validateConstraints c (pre ++ rest) = validateConstraints c rest := by
  induction pre with
  | nil => rw [List.nil_append]
  | cons e pre2 ih =>
    obtain ⟨key, value⟩ := e
    obtain ⟨s, hs, hv⟩ := h (key, value) (List.mem_cons_self _ _)
    simp only [List.cons_append, validateConstraints, hs]
    cases hval : s.validate with
    | none => exact ih fun e2 he2 => h e2 (List.mem_cons_of_mem _ he2)
    | some f =>
      have hfv : f value = Except.ok () := hv f hval
      show (match f value with
          | Except.error e => Except.error e
          | Except.ok _ => validateConstraints c (pre2 ++ rest))
          = validateConstraints c rest
      rw [hfv]
      exact ih fun e2 he2 => h e2 (List.mem_cons_of_mem _ he2)

theorem validateConstraints_ok_of_no_validate (c : Constrainer) (cs : List (String × JsVal))
    (h : ∀ e ∈ cs, ∃ s, lookupStrat c.availableStrategies e.1 = some s ∧ s.validate = none) :
    validateConstraints c cs = .ok () := by
  revert h
  induction cs with
  | nil => intro _; rfl
  | cons e rest ih =>
    intro h
    obtain ⟨key, value⟩ := e
    obtain ⟨s, hs, hval⟩ := h (key, value) (List.mem_cons_self _ _)
    simp only [validateConstraints, hs, hval]
    exact ih fun e2 he2 => h e2 (List.mem_cons_of_mem _ he2)

/-! ## Lemmas about compiling the deriver -/

theorem buildDeriveConstraints_nonempty (c : Constrainer) (h : c.usedStrategies ≠ []) :
    buildDeriveConstraints c
      = match resolveUsed c.availableStrategies c.usedStrategies with
        | .error e => .error e
        | .ok resolved => .ok (runDerive resolved) := by
  cases hu : c.usedStrategies with
  | nil => exact absurd hu h
  | cons u rest => simp only [buildDeriveConstraints, hu]

theorem runDerive_eq_none_iff (resolved : List (String × Strategy)) (req : Req)
    (ctx : JsVal) :
    runDerive resolved req ctx = none
      ↔ ∀ ks ∈ resolved, (derivedValueFor ks.1 ks.2 req ctx).truthy = false := by
  have hf := derivePass_fst req ctx resolved (false, [])
  rw [Bool.false_or] at hf
  simp only [runDerive]
  by_cases hb : (derivePass req ctx resolved (false, [])).1 = true
  · rw [if_pos hb]
    constructor
    · intro h; cases h
    · intro h
      rw [hb] at hf
      obtain ⟨ks, hks, hT⟩ := List.any_eq_true.mp hf.symm
      rw [h ks hks] at hT
      cases hT
  · rw [if_neg hb]
    have hfalse : (derivePass req ctx resolved (false, [])).1 = false :=
      Bool.eq_false_iff.mpr hb
    rw [hfalse] at hf
    constructor
    · intro _ ks hks
      have h2 := List.any_eq_false.mp hf.symm ks hks
      exact Bool.eq_false_iff.mpr h2
    · intro _
      rfl

theorem runDerive_entry (l1 l2 : List (String × Strategy)) (ks : String × Strategy)
    (req : Req) (ctx : JsVal)
    (hno : ∀ p ∈ l2, p.2.name ≠ ks.2.name)
    (htruthy : (derivedValueFor ks.1 ks.2 req ctx).truthy = true) :
    resultEntry (runDerive (l1 ++ ks :: l2) req ctx) ks.2.name
      = some (derivedValueFor ks.1 ks.2 req ctx) := by
  have hflag : (derivePass req ctx (l1 ++ ks :: l2) (false, [])).1 = true := by
    rw [derivePass_fst]
    simp [htruthy]
  simp only [runDerive, hflag, if_pos]
  simp only [resultEntry]
  exact derivePass_entry req ctx l1 l2 ks (false, []) hno htruthy

theorem runDerive_entry_none (l : List (String × Strategy)) (req : Req) (ctx : JsVal)
    (k : String) (h : ∀ p ∈ l, p.2.name ≠ k) :
    resultEntry (runDerive l req ctx) k = none := by
  simp only [runDerive]
  by_cases hflag : (derivePass req ctx l (false, [])).1 = true
  · rw [if_pos hflag]
    simp only [resultEntry]
    rw [derivePass_objLookup_of_no_name _ _ _ _ _ h]
    rfl
  · rw [if_neg hflag]
    rfl

theorem names_split_not_mem (l1 l2 : List (String × Strategy)) (ks : String × Strategy)
    (hnodup : ((l1 ++ ks :: l2).map fun p => p.2.name).Nodup) :
    ∀ p ∈ l1 ++ l2, p.2.name ≠ ks.2.name := by
  rw [List.map_append, List.map_cons] at hnodup
  intro p hp heq
  rcases List.mem_append.mp hp with hp | hp
  · have h1 : p.2.name ∈ l1.map (fun p => p.2.name) := List.mem_map_of_mem _ hp
    have hdisj := (List.nodup_append.mp hnodup).2.2
    exact hdisj h1 (by rw [heq]; exact List.mem_cons_self _ _)
  · have h2 := (List.nodup_append.mp hnodup).2.1
    have h3 := (List.nodup_cons.mp h2).1
    exact h3 (by rw [← heq]; exact List.mem_map_of_mem _ hp)

/-! ## Shape of constructed strategy tables, and the generic derivation -/

theorem mkConstrainer_strategies_shape (customs : Option (List (String × StrategyObj)))
    (c : Constrainer) (h : mkConstrainer customs = .ok c) :
    ∀ p ∈ c.availableStrategies,
      p.2.isCustom = true ∨ p = ("version", acceptVersionStrategy)
        ∨ p = ("host", acceptHostStrategy) := by
  cases customs with
  | none =>
    simp only [mkConstrainer] at h
    injection h with h
    subst h
    intro p hp
    simp [baseStrategies] at hp
    rcases hp with rfl | rfl
    · right; left; rfl
    · right; right; rfl
  | some l =>
    simp only [mkConstrainer] at h
    cases ha : addCustomStrategies baseStrategies l with
    | error e => rw [ha] at h; cases h
    | ok avail =>
      rw [ha] at h
      injection h with h
      subst h
      intro p hp
      rcases addCustomStrategies_mem _ _ _ ha p hp with hmem | hcustom
      · simp [baseStrategies] at hmem
        rcases hmem with rfl | rfl
        · right; left; rfl
        · right; right; rfl
      · left; exact hcustom

theorem derivedValueFor_eq_deriveConstraint (key : String) (strat : Strategy)
    (req : Req) (ctx : JsVal)
    (hshape : strat.isCustom = true
      ∨ (key, strat) = ("version", acceptVersionStrategy)
      ∨ (key, strat) = ("host", acceptHostStrategy)) :
    derivedValueFor key strat req ctx = strat.deriveConstraint req ctx := by
  rcases hshape with hc | h | h
  · simp [derivedValueFor, hc]
  · have h1 : key = "version" := congrArg Prod.fst h
    have h2 : strat = acceptVersionStrategy := congrArg Prod.snd h
    subst h1
    subst h2
    rfl
  · have h1 : key = "host" := congrArg Prod.fst h
    have h2 : strat = acceptHostStrategy := congrArg Prod.snd h
    subst h1
    subst h2
    rfl

theorem derivePass_eq_genericDerivePass (req : Req) (ctx : JsVal)
    (l : List (String × Strategy)) (acc : Bool × JsObj)
    (h : ∀ ks ∈ l, derivedValueFor ks.1 ks.2 req ctx = ks.2.deriveConstraint req ctx) :
    derivePass req ctx l acc = genericDerivePass req ctx l acc := by
  induction l generalizing acc with
  | nil => rfl
  | cons ks rest ih =>
    simp only [derivePass, genericDerivePass]
    have hstep : deriveStep req ctx acc ks = genericDeriveStep req ctx acc ks := by
      simp only [deriveStep, genericDeriveStep, h ks (List.mem_cons_self _ _)]
    rw [hstep]
    exact ih _ fun p hp => h p (List.mem_cons_of_mem _ hp)

theorem resultEntry_ite (b : Bool) (m : JsObj) (k : String) :
    resultEntry (if b = true then some m else none) k
      = if b = true then objLookup m k else none := by
  cases b <;> simp [resultEntry]

theorem runDerive_snoc_entry (resolved : List (String × Strategy)) (ks : String × Strategy)
    (req : Req) (ctx : JsVal) (key : String) (hne : ks.2.name ≠ key) :
    resultEntry (runDerive (resolved ++ [ks]) req ctx) key
      = resultEntry (runDerive resolved req ctx) key := by
  simp only [runDerive, derivePass_append, derivePass, resultEntry_ite]
  by_cases ht : (derivedValueFor ks.1 ks.2 req ctx).truthy = true
  · have hstep : deriveStep req ctx (derivePass req ctx resolved (false, [])) ks
        = (true, objSet (derivePass req ctx resolved (false, [])).2 ks.2.name
            (derivedValueFor ks.1 ks.2 req ctx)) := by
      simp [deriveStep, ht]
    have h1 : (deriveStep req ctx (derivePass req ctx resolved (false, [])) ks).1 = true := by
      rw [hstep]
    have h2 : (deriveStep req ctx (derivePass req ctx resolved (false, [])) ks).2
        = objSet (derivePass req ctx resolved (false, [])).2 ks.2.name
            (derivedValueFor ks.1 ks.2 req ctx) := by
      rw [hstep]
    rw [if_pos h1, h2, objLookup_objSet_ne _ _ _ _ (Ne.symm hne)]
    by_cases hflag : (derivePass req ctx resolved (false, [])).1 = true
    · rw [if_pos hflag]
    · rw [if_neg hflag]
      have hempty := derivePass_of_fst_false req ctx resolved (false, [])
        (Bool.eq_false_iff.mpr hflag)
      rw [hempty]
      rfl
  · have ht2 : (derivedValueFor ks.1 ks.2 req ctx).truthy = false := Bool.eq_false_iff.mpr ht
    have hstep : deriveStep req ctx (derivePass req ctx resolved (false, [])) ks
        = derivePass req ctx resolved (false, []) := by
      simp [deriveStep, ht2]
    rw [hstep]

/-! ## Claim theorems -/

/-- C1: the claim states that whenever the `version` strategy derives a
value, the must-match matcher returns none rather than the node's default
handler, because the built-in version strategy is flagged
`mustMatchWhenDerived` by default. The code contradicts this:
`lib/strategies/accept-version.js` exports no `mustMatchWhenDerived`
property at all, even though the comment above
`_buildMustMatchHandlerMatcher` documents exactly the claimed SemVer
semantics, so the compiled matcher contains no guard. Evaluated at the
failing input — `version` in use, request header `accept-version: 1.x`, a
node whose only handler is the default one — derivation produces a defined
`version` entry, yet the matcher still returns the default handler. -/
theorem c1_version_without_flag_still_matches_default :
    (addUsedStrategy defaultConstrainer "version"
      = .ok { availableStrategies := baseStrategies, usedStrategies := ["version"] })
    ∧ (buildDeriveConstraints
        { availableStrategies := baseStrategies, usedStrategies := ["version"] }
      = .ok (runDerive [("version", acceptVersionStrategy)]))
    ∧ (runDerive [("version", acceptVersionStrategy)]
        (headerReq [("accept-version", .str "1.x")]) .null
      = some [("version", .str "1.x")])
    ∧ (mustMatchHandlerMatcher
        { availableStrategies := baseStrategies, usedStrategies := ["version"] }
        [("version", JsVal.str "1.x")] [(0 : Nat)]
      = some 0) :=
  ⟨rfl, rfl, rfl, rfl⟩

/-- C3: for a request where (at least) the `host` strategy derived a value
and no strategy flagged `mustMatchWhenDerived` has a defined entry in the
derived constraints, the compiled must-match matcher returns the node's
default handler `handlers[0]`: `host` does not exclude the fallback. -/
theorem c3_host_only_default_handler_eligible {α : Type} (c : Constrainer)
    (derived : JsObj) (handlers : List α)
    (hhost : (objLookup derived "host").isSome = true)
    (hflagged : ∀ p ∈ c.availableStrategies,
      p.2.mustMatchWhenDerived = true → objLookup derived p.1 = none) :
    mustMatchHandlerMatcher c derived handlers = handlers.head? := by
  have hc : mustMatchCheck c.availableStrategies derived = false := by
    cases hb : mustMatchCheck c.availableStrategies derived
    · rfl
    · obtain ⟨p, hp, hflag, hdef⟩ := (mustMatchCheck_eq_true_iff _ _).mp hb
      rw [hflagged p hp hflag] at hdef
      simp at hdef
  simp [mustMatchHandlerMatcher, hc]

/-- Witness for C3 at a concrete input: the default constrainer, derived
constraints `{host: "example.com"}`, and a node with one handler. -/
theorem c3_host_only_default_handler_eligible_witness :
    mustMatchHandlerMatcher defaultConstrainer [("host", JsVal.str "example.com")]
      [(7 : Nat)] = some 7 := by
  have hflagged : ∀ p ∈ defaultConstrainer.availableStrategies,
      p.2.mustMatchWhenDerived = true
        → objLookup [("host", JsVal.str "example.com")] p.1 = none := by
    intro p hp hflag
    simp [defaultConstrainer, baseStrategies] at hp
    rcases hp with rfl | rfl
    · simp [acceptVersionStrategy] at hflag
    · simp [acceptHostStrategy] at hflag
  rw [c3_host_only_default_handler_eligible defaultConstrainer
    [("host", JsVal.str "example.com")] [(7 : Nat)] rfl hflagged]
  rfl

/-- C4 counterexample: the claim states `addUsedStrategy` fails with
`UnknownStrategy` for a name not in `availableStrategies`. It does not:
the method performs no availability check, so marking the unknown name
"region" used on the default constrainer pushes it and then throws a
`TypeError` from `_buildDeriveConstraints` reading `.isCustom` off
`undefined` — a different error than `UnknownStrategy`. -/
theorem c4_addUsedStrategy_unknown_name_counterexample :
    (addUsedStrategy defaultConstrainer "region"
      = .error (.typeError "Cannot read properties of undefined (reading isCustom)"))
    ∧ (JsErr.typeError "Cannot read properties of undefined (reading isCustom)"
        ≠ unknownStrategyErr "region") :=
  ⟨rfl, by decide⟩

/-- C4 (amended): `addUsedStrategy` performs no `UnknownStrategy` check.
For a name with no registered strategy (and not already used) it fails with
the `TypeError` thrown while recompiling the deriver; for a name whose
strategy is registered it appends the name to `usedStrategies` when absent
(leaving the state unchanged when present) and the recompilation of the
deriver and matcher — both pure functions of the resulting state —
succeeds. -/
theorem c4_addUsedStrategy_amended (c : Constrainer) (name : String)
    (hused : ∀ k ∈ c.usedStrategies, (lookupStrat c.availableStrategies k).isSome = true) :
    (name ∉ c.usedStrategies → lookupStrat c.availableStrategies name = none →
      addUsedStrategy c name
        = .error (.typeError "Cannot read properties of undefined (reading isCustom)"))
    ∧ (lookupStrat c.availableStrategies name ≠ none →
      addUsedStrategy c name
        = .ok (if name ∈ c.usedStrategies then c
               else { c with usedStrategies := c.usedStrategies ++ [name] })) := by
  constructor
  · intro hmem hnone
    obtain ⟨r1, hr1⟩ := resolveUsed_ok_of_forall c.availableStrategies c.usedStrategies hused
    have happ := resolveUsed_append c.availableStrategies c.usedStrategies [name] r1 hr1
    have hsingle : resolveUsed c.availableStrategies [name]
        = .error (.typeError "Cannot read properties of undefined (reading isCustom)") := by
      simp only [resolveUsed, hnone]
    rw [hsingle] at happ
    simp only [Except.map] at happ
    have hb : buildDeriveConstraints { c with usedStrategies := c.usedStrategies ++ [name] }
        = .error (.typeError "Cannot read properties of undefined (reading isCustom)") := by
      rw [buildDeriveConstraints_nonempty _ (by simp), happ]
    unfold addUsedStrategy
    rw [if_neg hmem, hb]
  · intro hsome
    by_cases hmem : name ∈ c.usedStrategies
    · unfold addUsedStrategy
      rw [if_pos hmem, if_pos hmem]
    · cases hl : lookupStrat c.availableStrategies name with
      | none => exact absurd hl hsome
      | some s =>
        have hall : ∀ k ∈ c.usedStrategies ++ [name],
            (lookupStrat c.availableStrategies k).isSome = true := by
          intro k hk
          rcases List.mem_append.mp hk with hk | hk
          · exact hused k hk
          · simp at hk
            subst hk
            rw [hl]
            rfl
        obtain ⟨r, hr⟩ := resolveUsed_ok_of_forall _ _ hall
        have hb : buildDeriveConstraints
            { c with usedStrategies := c.usedStrategies ++ [name] }
            = .ok (runDerive r) := by
          rw [buildDeriveConstraints_nonempty _ (by simp), hr]
        unfold addUsedStrategy
        rw [if_neg hmem, hb, if_neg hmem]

/-- Witness for C4 (amended) at a concrete input: marking the registered
name "host" used on the default constrainer appends it and succeeds. -/
theorem c4_addUsedStrategy_amended_witness :
    addUsedStrategy defaultConstrainer "host"
      = .ok { availableStrategies := baseStrategies, usedStrategies := ["host"] } := by
  have h := (c4_addUsedStrategy_amended defaultConstrainer "host"
      (by intro k hk; simp [defaultConstrainer] at hk)).2
    (fun hh => Option.noConfusion hh)
  rw [h]
  rfl

/-- C5: `validateConstraints` succeeds on a map whose keys all resolve to
strategies without `validate`; it fails with `UnknownStrategy` at the first
key (after entries the validation passes over) that is not in
`availableStrategies`; and a strategy's own validation failure on its value
propagates to the caller. -/
theorem c5_validateConstraints_spec (c : Constrainer) (cs pre post : List (String × JsVal))
    (k : String) (v : JsVal) :
    ((∀ e ∈ cs, ∃ s, lookupStrat c.availableStrategies e.1 = some s ∧ s.validate = none) →
      validateConstraints c cs = .ok ())
    ∧ (cs = pre ++ (k, v) :: post → (∀ e ∈ pre, entryOk c e) →
        lookupStrat c.availableStrategies k = none →
        validateConstraints c cs = .error (unknownStrategyErr k))
    ∧ (∀ s f err, cs = pre ++ (k, v) :: post → (∀ e ∈ pre, entryOk c e) →
        lookupStrat c.availableStrategies k = some s → s.validate = some f →
        f v = .error err → validateConstraints c cs = .error err) := by
  refine ⟨validateConstraints_ok_of_no_validate c cs, ?_, ?_⟩
  · intro heq hpre hk
    subst heq
    rw [validateConstraints_append c pre _ hpre]
    simp only [validateConstraints, hk]
  · intro s f err heq hpre hs hf hfv
    subst heq
    rw [validateConstraints_append c pre _ hpre]
    simp only [validateConstraints, hs, hf, hfv]

/-- Witness for C5 at a concrete input: an unregistered key "region" fails
with the `UnknownStrategy` error for that key. -/
theorem c5_validateConstraints_spec_witness :
    validateConstraints defaultConstrainer [("region", JsVal.str "us-east")]
      = .error (unknownStrategyErr "region") :=
  (c5_validateConstraints_spec defaultConstrainer _ [] [] "region" (JsVal.str "us-east")).2.1
    rfl (by simp) rfl

/-- C7: `usedStrategies` is append-only — on every successful
`addUsedStrategy` the old list is a prefix of the new one and
`availableStrategies` is untouched — and marking an already-used name is a
no-op returning the identical state, so the compiled functions (pure
functions of that state) are not recompiled beyond the first occurrence. -/
theorem c7_usedStrategies_append_only (c c2 : Constrainer) (name : String) :
    (addUsedStrategy c name = .ok c2 →
      c.usedStrategies <+: c2.usedStrategies
        ∧ c2.availableStrategies = c.availableStrategies)
    ∧ (name ∈ c.usedStrategies → addUsedStrategy c name = .ok c) := by
  constructor
  · intro h
    unfold addUsedStrategy at h
    by_cases hmem : name ∈ c.usedStrategies
    · rw [if_pos hmem] at h
      injection h with h
      subst h
      exact ⟨List.prefix_refl _, rfl⟩
    · rw [if_neg hmem] at h
      cases hb : buildDeriveConstraints
          { c with usedStrategies := c.usedStrategies ++ [name] } with
      | error e => rw [hb] at h; cases h
      | ok d =>
        rw [hb] at h
        injection h with h
        subst h
        exact ⟨⟨[name], rfl⟩, rfl⟩
  · intro hmem
    unfold addUsedStrategy
    rw [if_pos hmem]

/-- Witness for C7 at a concrete input: re-marking "version" on a state
already using it returns the very same state. -/
theorem c7_usedStrategies_append_only_witness :
    addUsedStrategy { availableStrategies := baseStrategies, usedStrategies := ["version"] }
      "version"
      = .ok { availableStrategies := baseStrategies, usedStrategies := ["version"] } :=
  (c7_usedStrategies_append_only
    { availableStrategies := baseStrategies, usedStrategies := ["version"] }
    { availableStrategies := baseStrategies, usedStrategies := ["version"] }
    "version").2 (by simp)

/-- C2: the compiled `deriveConstraints` returns the null marker (not an
empty object) both when `usedStrategies` is empty and when no used strategy
derived a (truthy) value for the request; otherwise it returns an object
binding, for each used strategy that derived a value, that strategy's name
to the derived value. -/
theorem c2_deriveConstraints_null_marker_and_entries (c : Constrainer) (req : Req)
    (ctx : JsVal) :
    (c.usedStrategies = [] → buildDeriveConstraints c = .ok fun _ _ => none)
    ∧ (∀ (d : Req → JsVal → Option JsObj) (resolved : List (String × Strategy)),
        buildDeriveConstraints c = .ok d →
        resolveUsed c.availableStrategies c.usedStrategies = .ok resolved →
        ((d req ctx = none
            ↔ ∀ ks ∈ resolved, (derivedValueFor ks.1 ks.2 req ctx).truthy = false)
          ∧ ((resolved.map fun ks => ks.2.name).Nodup →
              ∀ ks ∈ resolved, (derivedValueFor ks.1 ks.2 req ctx).truthy = true →
                resultEntry (d req ctx) ks.2.name
                  = some (derivedValueFor ks.1 ks.2 req ctx)))) := by
  constructor
  · intro h
    simp only [buildDeriveConstraints, h]
  · intro d resolved hd hres
    cases hu : c.usedStrategies with
    | nil =>
      rw [hu] at hres
      simp only [resolveUsed] at hres
      injection hres with hres
      subst hres
      simp only [buildDeriveConstraints, hu] at hd
      injection hd with hd
      subst hd
      constructor
      · simp
      · intro _ ks hks
        cases hks
    | cons u rest =>
      have hne : c.usedStrategies ≠ [] := by rw [hu]; simp
      rw [buildDeriveConstraints_nonempty c hne, hres] at hd
      injection hd with hd
      subst hd
      constructor
      · exact runDerive_eq_none_iff resolved req ctx
      · intro hnodup ks hks ht
        obtain ⟨l1, l2, hsplit⟩ := List.append_of_mem hks
        subst hsplit
        exact runDerive_entry l1 l2 ks req ctx
          (fun p hp =>
            names_split_not_mem l1 l2 ks hnodup p (List.mem_append.mpr (Or.inr hp)))
          ht

/-- Witness for C2 at a concrete input: with `version` in use and request
header `accept-version: 1.x`, the derivation result binds "version" to the
header value. -/
theorem c2_deriveConstraints_null_marker_and_entries_witness :
    resultEntry
      (runDerive [("version", acceptVersionStrategy)]
        (headerReq [("accept-version", JsVal.str "1.x")]) JsVal.null) "version"
      = some (JsVal.str "1.x") := by
  have h := (c2_deriveConstraints_null_marker_and_entries
      { availableStrategies := baseStrategies, usedStrategies := ["version"] }
      (headerReq [("accept-version", JsVal.str "1.x")]) JsVal.null).2
    (runDerive [("version", acceptVersionStrategy)])
    [("version", acceptVersionStrategy)] rfl rfl
  exact h.2 (by simp [acceptVersionStrategy]) ("version", acceptVersionStrategy)
    (List.mem_cons_self _ _) rfl

/-- C6: construction with a custom strategy missing a non-empty string
name, a storage function, or a deriveConstraint function fails with the
corresponding assertion failure (the spec's `InvalidStrategy`), aborting
construction; construction whose custom strategies all pass the three
asserts succeeds with an empty used list and inserts each strategy into
`availableStrategies` keyed by its own name. -/
theorem c6_constructor_strategy_validation (customs pre post : List (String × StrategyObj))
    (key : String) (obj : StrategyObj) (err : JsErr) :
    (customs = pre ++ (key, obj) :: post →
      (∀ e ∈ pre, ∃ s f, checkStrategyObj e.2 = .ok (s, f)) →
      checkStrategyObj obj = .error err →
      mkConstrainer (some customs) = .error err)
    ∧ ((∀ e ∈ customs, ∃ s f, checkStrategyObj e.2 = .ok (s, f)) →
      ∃ c, mkConstrainer (some customs) = .ok c ∧ c.usedStrategies = []
        ∧ (customs = pre ++ (key, obj) :: post →
            ∀ s f, checkStrategyObj obj = .ok (s, f) →
            (∀ e ∈ post, ∀ s2 f2, checkStrategyObj e.2 = .ok (s2, f2) → s2 ≠ s) →
            lookupStrat c.availableStrategies s = some (toStrategy s f obj))) := by
  constructor
  · intro heq hpre hc
    subst heq
    obtain ⟨a1, ha1⟩ := addCustomStrategies_ok baseStrategies pre hpre
    have happ := addCustomStrategies_append baseStrategies pre ((key, obj) :: post) a1 ha1
    have hstep : addCustomStrategies a1 ((key, obj) :: post) = .error err := by
      simp only [addCustomStrategies, hc]
    simp only [mkConstrainer]
    rw [happ, hstep]
  · intro hall
    obtain ⟨avail, ha⟩ := addCustomStrategies_ok baseStrategies customs hall
    refine ⟨{ availableStrategies := avail, usedStrategies := [] }, ?_, rfl, ?_⟩
    · simp only [mkConstrainer, ha]
    · intro heq s f hc hpost
      subst heq
      obtain ⟨a1, ha1⟩ := addCustomStrategies_ok baseStrategies pre
        fun e he => hall e (List.mem_append.mpr (Or.inl he))
      have happ := addCustomStrategies_append baseStrategies pre ((key, obj) :: post) a1 ha1
      rw [happ] at ha
      simp only [addCustomStrategies, hc] at ha
      rw [addCustomStrategies_lookup_other _ post avail s ha hpost]
      exact lookupStrat_setStrat_self _ _ _

/-- Witness for C6 at a concrete input: a custom strategy with no `name`
property aborts construction with the name assertion. -/
theorem c6_constructor_strategy_validation_witness :
    mkConstrainer (some [("region", namelessStrategyObj)])
      = .error (.assertionError "strategy.name is required.") :=
  (c6_constructor_strategy_validation [("region", namelessStrategyObj)] [] []
    "region" namelessStrategyObj (.assertionError "strategy.name is required.")).1
    rfl (by simp) rfl

/-- C8: for every constrainer produced by the constructor, the compiled
deriver (whose generated code inlines the header reads
`req.headers['accept-version']` and `req.headers.host` for the built-in
strategies) produces the same result as the spec-modelled generic
derivation that invokes each resolved strategy's own `deriveConstraint`,
on every request. -/
theorem c8_inlined_header_extraction_refines_deriveConstraint
    (customs : Option (List (String × StrategyObj))) (c0 : Constrainer)
    (used : List String) (resolved : List (String × Strategy)) (req : Req) (ctx : JsVal)
    (hmk : mkConstrainer customs = .ok c0)
    (hres : resolveUsed c0.availableStrategies used = .ok resolved) :
    runDerive resolved req ctx = runGenericDerive resolved req ctx
    ∧ (∀ d, buildDeriveConstraints
          { availableStrategies := c0.availableStrategies, usedStrategies := used }
        = .ok d → d req ctx = runGenericDerive resolved req ctx) := by
  have hvals : ∀ ks ∈ resolved,
      derivedValueFor ks.1 ks.2 req ctx = ks.2.deriveConstraint req ctx := by
    intro ks hks
    have hlook := (resolveUsed_spec _ _ _ hres).2 ks hks
    have hmem := lookupStrat_mem _ _ _ hlook
    have hshape := mkConstrainer_strategies_shape customs c0 hmk ks hmem
    refine derivedValueFor_eq_deriveConstraint ks.1 ks.2 req ctx ?_
    rcases hshape with h | h | h
    · exact Or.inl h
    · exact Or.inr (Or.inl h)
    · exact Or.inr (Or.inr h)
  have hmain : runDerive resolved req ctx = runGenericDerive resolved req ctx := by
    simp only [runDerive, runGenericDerive,
      derivePass_eq_genericDerivePass req ctx resolved (false, []) hvals]
  refine ⟨hmain, ?_⟩
  intro d hd
  cases hu : used with
  | nil =>
    rw [hu] at hres
    simp only [resolveUsed] at hres
    injection hres with hres
    subst hres
    rw [hu] at hd
    simp only [buildDeriveConstraints] at hd
    injection hd with hd
    subst hd
    simp [runGenericDerive, genericDerivePass]
  | cons u rest =>
    have hne : ({ availableStrategies := c0.availableStrategies, usedStrategies := used }
        : Constrainer).usedStrategies ≠ [] := by rw [hu]; simp
    rw [buildDeriveConstraints_nonempty _ hne, hres] at hd
    injection hd with hd
    subst hd
    exact hmain

/-- Witness for C8 at a concrete input: the two built-in strategies in use
and a request with both headers set. -/
theorem c8_inlined_header_extraction_refines_deriveConstraint_witness :
    runDerive [("version", acceptVersionStrategy), ("host", acceptHostStrategy)]
        (headerReq [("accept-version", JsVal.str "1.x"), ("host", JsVal.str "fastify.io")])
        JsVal.null
      = runGenericDerive [("version", acceptVersionStrategy), ("host", acceptHostStrategy)]
        (headerReq [("accept-version", JsVal.str "1.x"), ("host", JsVal.str "fastify.io")])
        JsVal.null :=
  (c8_inlined_header_extraction_refines_deriveConstraint none defaultConstrainer
    ["version", "host"] [("version", acceptVersionStrategy), ("host", acceptHostStrategy)]
    (headerReq [("accept-version", JsVal.str "1.x"), ("host", JsVal.str "fastify.io")])
    JsVal.null rfl rfl).1

/-- C9: the compiled deriver and matcher are recomputed deterministically
from `usedStrategies` and `availableStrategies`; when `addUsedStrategy`
appends a new strategy, the recompiled deriver agrees with the old one on
the entry it produces for every previously-used strategy, on every request
(in a table where every strategy is keyed by its own name, as the
constructor maintains). -/
theorem c9_recompilation_preserves_prior_entries (c c2 : Constrainer) (name : String)
    (d d2 : Req → JsVal → Option JsObj) (req : Req) (ctx : JsVal)
    (hnames : ∀ p ∈ c.availableStrategies, p.2.name = p.1)
    (hadd : addUsedStrategy c name = .ok c2)
    (hd : buildDeriveConstraints c = .ok d)
    (hd2 : buildDeriveConstraints c2 = .ok d2) :
    ∀ key ∈ c.usedStrategies,
      resultEntry (d2 req ctx) key = resultEntry (d req ctx) key := by
  by_cases hmem : name ∈ c.usedStrategies
  · have hid : addUsedStrategy c name = .ok c := by
      unfold addUsedStrategy
      rw [if_pos hmem]
    rw [hid] at hadd
    injection hadd with hadd
    subst hadd
    rw [hd] at hd2
    injection hd2 with hd2
    subst hd2
    intro key _
    rfl
  · unfold addUsedStrategy at hadd
    rw [if_neg hmem] at hadd
    cases hb : buildDeriveConstraints
        { c with usedStrategies := c.usedStrategies ++ [name] } with
    | error e => rw [hb] at hadd; cases hadd
    | ok dx =>
      rw [hb] at hadd
      injection hadd with hadd
      subst hadd
      by_cases hnil : c.usedStrategies = []
      · intro key hkey
        rw [hnil] at hkey
        cases hkey
      · rw [buildDeriveConstraints_nonempty c hnil] at hd
        cases hres : resolveUsed c.availableStrategies c.usedStrategies with
        | error e => rw [hres] at hd; cases hd
        | ok resolved =>
          rw [hres] at hd
          injection hd with hd
          subst hd
          cases hl : lookupStrat c.availableStrategies name with
          | none =>
            have hsingle : resolveUsed c.availableStrategies [name]
                = .error (.typeError
                    "Cannot read properties of undefined (reading isCustom)") := by
              simp only [resolveUsed, hl]
            have happ := resolveUsed_append c.availableStrategies c.usedStrategies [name]
              resolved hres
            rw [hsingle] at happ
            simp only [Except.map] at happ
            have hb2 : buildDeriveConstraints
                { c with usedStrategies := c.usedStrategies ++ [name] }
                = .error (.typeError
                    "Cannot read properties of undefined (reading isCustom)") := by
              rw [buildDeriveConstraints_nonempty _ (by simp), happ]
            rw [hb2] at hd2
            cases hd2
          | some s =>
            have hsingle : resolveUsed c.availableStrategies [name] = .ok [(name, s)] := by
              simp only [resolveUsed, hl]
            have happ := resolveUsed_append c.availableStrategies c.usedStrategies [name]
              resolved hres
            rw [hsingle] at happ
            simp only [Except.map] at happ
            have hb2 : buildDeriveConstraints
                { c with usedStrategies := c.usedStrategies ++ [name] }
                = .ok (runDerive (resolved ++ [(name, s)])) := by
              rw [buildDeriveConstraints_nonempty _ (by simp), happ]
            rw [hb2] at hd2
            injection hd2 with hd2
            subst hd2
            intro key hkey
            have hsname : s.name = name := hnames (name, s) (lookupStrat_mem _ _ _ hl)
            have hkeyne : ((name, s) : String × Strategy).2.name ≠ key := by
              intro hh
              rw [hsname] at hh
              subst hh
              exact hmem hkey
            exact runDerive_snoc_entry resolved (name, s) req ctx key hkeyne

/-- Witness for C9 at a concrete input: adding `host` after `version` does
not change the entry derived for `version`. -/
theorem c9_recompilation_preserves_prior_entries_witness :
    resultEntry
      (runDerive [("version", acceptVersionStrategy), ("host", acceptHostStrategy)]
        (headerReq [("accept-version", JsVal.str "1.x"), ("host", JsVal.str "fastify.io")])
        JsVal.null) "version"
      = resultEntry
        (runDerive [("version", acceptVersionStrategy)]
          (headerReq [("accept-version", JsVal.str "1.x"), ("host", JsVal.str "fastify.io")])
          JsVal.null) "version" := by
  have h := c9_recompilation_preserves_prior_entries
    { availableStrategies := baseStrategies, usedStrategies := ["version"] }
    { availableStrategies := baseStrategies, usedStrategies := ["version", "host"] }
    "host"
    (runDerive [("version", acceptVersionStrategy)])
    (runDerive [("version", acceptVersionStrategy), ("host", acceptHostStrategy)])
    (headerReq [("accept-version", JsVal.str "1.x"), ("host", JsVal.str "fastify.io")])
    JsVal.null
    (by intro p hp
        simp [baseStrategies] at hp
        rcases hp with rfl | rfl <;> rfl)
    rfl rfl rfl
  exact h "version" (List.mem_cons_self _ _)

/-- C10: a header or custom-derived value that is falsy but defined (empty
string, 0, false) is treated by the compiled deriver as "no value derived":
the strategy contributes no entry (the derivation result equals the one
with the strategy dropped, so it does not count toward the has-constraints
flag), and consequently it can never be the key that triggers the
must-match exclusion of a node's default handler. -/
theorem c10_falsy_defined_value_treated_as_underived (c : Constrainer)
    (d : Req → JsVal → Option JsObj) (resolved l1 l2 : List (String × Strategy))
    (ks : String × Strategy) (req : Req) (ctx : JsVal)
    (hd : buildDeriveConstraints c = .ok d)
    (hres : resolveUsed c.availableStrategies c.usedStrategies = .ok resolved)
    (hnames : ∀ p ∈ c.availableStrategies, p.2.name = p.1)
    (hnodup : c.usedStrategies.Nodup)
    (hsplit : resolved = l1 ++ ks :: l2)
    (hfalsy : (derivedValueFor ks.1 ks.2 req ctx).truthy = false) :
    resultEntry (d req ctx) ks.2.name = none
    ∧ d req ctx = runDerive (l1 ++ l2) req ctx
    ∧ (∀ (α : Type) (m : JsObj) (handlers : List α) (h0 : α),
        d req ctx = some m → handlers.head? = some h0 →
        mustMatchHandlerMatcher c m handlers = none →
        ∃ p ∈ c.availableStrategies, p.2.mustMatchWhenDerived = true
          ∧ (objLookup m p.1).isSome = true ∧ p.1 ≠ ks.2.name) := by
  have hmapfst := (resolveUsed_spec _ _ _ hres).1
  have hne : c.usedStrategies ≠ [] := by
    rw [← hmapfst, hsplit]
    simp
  rw [buildDeriveConstraints_nonempty c hne, hres] at hd
  injection hd with hd
  subst hd
  have hnames2 : (resolved.map fun p => p.2.name).Nodup := by
    rw [resolveUsed_names _ _ _ hres hnames]
    exact hnodup
  have hnomem := names_split_not_mem l1 l2 ks (by rw [← hsplit]; exact hnames2)
  have hstep : deriveStep req ctx (derivePass req ctx l1 (false, [])) ks
      = derivePass req ctx l1 (false, []) := by
    simp [deriveStep, hfalsy]
  have h2 : runDerive resolved req ctx = runDerive (l1 ++ l2) req ctx := by
    rw [hsplit]
    simp only [runDerive, derivePass_append, derivePass]
    rw [hstep]
  have h1 : resultEntry (runDerive resolved req ctx) ks.2.name = none := by
    rw [h2]
    exact runDerive_entry_none (l1 ++ l2) req ctx ks.2.name hnomem
  refine ⟨h1, h2, ?_⟩
  intro α m handlers h0 hm hhead hmatch
  by_cases hcheck : mustMatchCheck c.availableStrategies m = true
  · obtain ⟨p, hp, hflag, hdef⟩ := (mustMatchCheck_eq_true_iff _ _).mp hcheck
    refine ⟨p, hp, hflag, hdef, ?_⟩
    intro hh
    rw [hm] at h1
    simp only [resultEntry] at h1
    rw [hh] at hdef
    rw [h1] at hdef
    simp at hdef
  · exfalso
    unfold mustMatchHandlerMatcher at hmatch
    rw [if_neg hcheck, hhead] at hmatch
    cases hmatch

/-- Witness for C10 at a concrete input: an empty `accept-version` header
is defined but falsy, and the derivation result has no "version" entry. -/
theorem c10_falsy_defined_value_treated_as_underived_witness :
    resultEntry
      (runDerive [("version", acceptVersionStrategy)]
        (headerReq [("accept-version", JsVal.str "")]) JsVal.null) "version"
      = none := by
  have h := c10_falsy_defined_value_treated_as_underived
    { availableStrategies := baseStrategies, usedStrategies := ["version"] }
    (runDerive [("version", acceptVersionStrategy)])
    [("version", acceptVersionStrategy)] [] []
    ("version", acceptVersionStrategy)
    (headerReq [("accept-version", JsVal.str "")]) JsVal.null
    rfl rfl
    (by intro p hp
        simp [baseStrategies] at hp
        rcases hp with rfl | rfl <;> rfl)
    (by simp) rfl rfl
  exact h.1

end FindMyWay
